import Mathlib

/-!
Verification development for the parallel join-order search engine
(`src/backend/optimizer/parallel/parallel_worker.c`,
`src/backend/optimizer/parallel/parallel_eval.c`, and the parallel-search
slice of `src/backend/optimizer/path/allpaths.c`).

The C code is shallowly embedded: `RelOptInfo` handles become the `Rel`
structure (carrying the covering bitmap `relids` and the
`cheapest_total_path->total_cost` value, which is the only field the search
reads), Postgres `List`s become Lean `List`s, the DP array `RelOptInfo ** P`
becomes a total function `Nat → Option Rel` (`NULL` = `none`), and the
external planner calls (`make_join_rel`, `generate_partitionwise_join_paths`,
`generate_gather_paths`, `set_cheapest`, `have_relevant_joinclause`/
`have_join_order_restriction`) are collected in an `Oracle` record, exactly
at the interface granularity the search code uses them.  A C null-pointer
dereference (undefined behaviour) is modelled as an explicit `Crash` value.
-/

set_option maxRecDepth 100000

namespace DB

/-- Model of `RelOptInfo` as seen by the search code: the relation-set bitmap
(`relids`) and the total cost of `cheapest_total_path`.  Costs are modelled
as integers; the search only ever compares them with `<` / `>`. -/
structure Rel where
  relids : Nat
  cost : Int
deriving DecidableEq, Repr, Inhabited

/-- The distinct null-pointer dereferences (undefined behaviour) the search
code can run into.  `nullJoinInput`: `make_join_rel` is handed a `NULL`
`RelOptInfo *` (it immediately dereferences its arguments).
`nullCandidate`: the DP-update comparison
`P[bitmap]->cheapest_total_path->total_cost > join_rel->cheapest_total_path->total_cost`
executes with `join_rel == NULL`.  `nullFinal`: the worker's final copy
`*best = *(P[(1 << levels_needed) - 1])` executes with a `NULL` entry.
`badConfig`: an invalid `p_type` reaches the worker (the C code would print
an error and then read uninitialized variables). -/
inductive Crash where
  | nullJoinInput
  | nullCandidate
  | nullFinal
  | badConfig
deriving DecidableEq, Repr

/-- The external planner collaborators, at the interface the search uses.
`mkJoin` models `make_join_rel` (`none` = illegal combination, i.e. the C
function returned `NULL`).  `finalizeRel` models the
`generate_partitionwise_join_paths` / optional `generate_gather_paths` /
`set_cheapest` sequence applied to a fresh join rel; the `Bool` records
whether the gather variant was requested.  `desirable` models
`desirable_join` (`have_relevant_joinclause || have_join_order_restriction`). -/
structure Oracle where
  mkJoin : Rel → Rel → Option Rel
  finalizeRel : Rel → Bool → Rel
  desirable : Rel → Rel → Bool

/-- The DP table `RelOptInfo ** P`, indexed by subset bitmap; `none` models a
`NULL` entry. -/
abbrev DP := Nat → Option Rel

/-- Write one DP slot (`P[b] = v`). -/
def updDP (P : DP) (b : Nat) (v : Option Rel) : DP :=
  fun x => if x = b then v else P x

/-- The bitmap accumulated by `bitmap |= (1 << num)` over a sub_rels list. -/
def mkBitmap (sub : List Nat) : Nat :=
  sub.foldl (fun b num => b ||| (1 <<< num)) 0

/-- All-ones 32-bit mask; `mask32 - (1 <<< u)` is the C expression
`~(1 << u)` on a 32-bit `int` (for `u < 32`). -/
def mask32 : Nat := 2 ^ 32 - 1

/-! ## Constraint Partitioner (`part_constraints`, `part_constraints_b`) -/

/-- Number of iterations of the C loop `for(int i = 0; (1 << i) < n_workers; i++)`:
the count of exponents `i` with `2^i < n_workers` (the predicate is downward
closed and `2^i < W` forces `i < W`, so counting over `range W` is exact). -/
def numGroups (n_workers : Nat) : Nat :=
  (List.range n_workers).countP (fun i => decide (2 ^ i < n_workers))

/-- `part_constraints` (parallel_worker.c:141): the left-deep order
constraints for one worker.  Bit `i` of `part_id` orients the pair
`(2i, 2i+1)`; a pair `(q1, q2)` means table `q1` is joined before `q2`.
(The `levels_needed` argument is unused, exactly as in the C.) -/
def part_constraints (levels_needed part_id n_workers : Nat) : List (Nat × Nat) :=
  (List.range (numGroups n_workers)).map (fun i =>
    if part_id &&& (1 <<< i) > 0 then (2 * i + 1, 2 * i) else (2 * i, 2 * i + 1))

/-- `part_constraints_b` (parallel_worker.c:187): the bushy-plan constraints;
triples over groups of three ordinals. -/
def part_constraints_b (levels_needed part_id n_workers : Nat) :
    List (Nat × Nat × Nat) :=
  (List.range (numGroups n_workers)).map (fun i =>
    if part_id &&& (1 <<< i) > 0 then (3 * i + 1, 3 * i, 3 * i + 2)
    else (3 * i, 3 * i + 1, 3 * i + 2))

/-! ## Admissible-set generator (`cartesian_product`, `constrained_power_set`,
`adm_join_results` and the bushy variants) -/

/-- `cartesian_product` (allpaths.c:250): returns `a`, if `b` is `NIL`;
`b`, if `a` is `NIL`; otherwise copies of `a`, copies of `b`, and for every
`b_i`, `a_j` the concatenation `b_i ++ a_j` (see `copy_concat_int`). -/
def cartesian_product (a b : List (List Nat)) : List (List Nat) :=
  match a, b with
  | [], _ => b
  | _, [] => a
  | _, _ => a ++ b ++ b.flatMap (fun bi => a.map (fun aj => bi ++ aj))

/-- `constrained_power_set` (parallel_worker.c:37): the power set of
`{q1, q2}` minus any singleton `{q}` for which some constraint lists `q` as
its second (the "after") component.  The fold mirrors the C's sequential
`if / else if` scan of the constraint list. -/
def constrained_power_set (constr : List (Nat × Nat)) (q1 q2 : Nat) :
    List (List Nat) :=
  let incl := constr.foldl
    (fun (p : Bool × Bool) c =>
      if c.2 = q1 then (false, p.2) else if c.2 = q2 then (p.1, false) else p)
    (true, true)
  (if incl.1 then [[q1]] else []) ++ (if incl.2 then [[q2]] else []) ++ [[q1, q2]]

/-- `constrained_power_set_b` (parallel_worker.c:67): bushy variant over a
group of three ordinals; `{q1,q3}` (resp. `{q2,q3}`) is dropped when a
constraint lists `q1` (resp. `q2`) as its second component. -/
def constrained_power_set_b (constr : List (Nat × Nat × Nat)) (q1 q2 q3 : Nat) :
    List (List Nat) :=
  let incl := constr.foldl
    (fun (p : Bool × Bool) c =>
      if c.2.1 = q1 then (false, p.2) else if c.2.1 = q2 then (p.1, false) else p)
    (true, true)
  [[q1], [q2], [q3], [q1, q2]] ++
    (if incl.1 then [[q1, q3]] else []) ++ (if incl.2 then [[q2, q3]] else []) ++
    [[q1, q2, q3]]

/-- `adm_join_results` (parallel_worker.c:224): the admissible intermediate
join sets; the loop bound `2*i + 1 < levels_needed` runs `i` over
`range (levels_needed / 2)`. -/
def adm_join_results (levels_needed : Nat) (constr : List (Nat × Nat)) :
    List (List Nat) :=
  (List.range (levels_needed / 2)).foldl
    (fun jr i => cartesian_product jr (constrained_power_set constr (2 * i) (2 * i + 1)))
    []

/-- `adm_join_results_b` (parallel_worker.c:243): bushy variant; the loop
bound `3*i + 2 < levels_needed` runs `i` over `range (levels_needed / 3)`. -/
def adm_join_results_b (levels_needed : Nat) (constr : List (Nat × Nat × Nat)) :
    List (List Nat) :=
  (List.range (levels_needed / 3)).foldl
    (fun jr i =>
      cartesian_product jr (constrained_power_set_b constr (3 * i) (3 * i + 1) (3 * i + 2)))
    []

/-! ## Left-deep splitter (`try_splits`) -/

/-- The `valid` array of `try_splits` after the constraint scan
(parallel_worker.c:296-308): `valid[u]` is cleared exactly when some
constraint `(q1, q2)` has `q1 = u` and both `q1` and `q2` present in the
sub_rels (the `present` array is modelled by list membership). -/
def splitsValid (constr : List (Nat × Nat)) (subRels : List Nat) (u : Nat) : Bool :=
  !(constr.any (fun c => c.1 = u && subRels.contains c.1 && subRels.contains c.2))

/-- The keep-the-minimum DP update, the block shared verbatim by
`try_splits` (parallel_worker.c:335-342) and `try_splits_b`
(parallel_worker.c:566-571): an empty slot takes the candidate (even a
`NULL` one); an occupied slot is replaced only when the candidate's total
cost is strictly lower — but the comparison dereferences the candidate, so a
`NULL` candidate against an occupied slot is a crash (`nullCandidate`). -/
def dpUpdate (P : DP) (bitmap : Nat) (jr : Option Rel) : Except Crash DP :=
  match P bitmap, jr with
  | none, _ => .ok (updDP P bitmap jr)
  | some old, some j =>
    .ok (if old.cost > j.cost then updDP P bitmap (some j) else P)
  | some _, none => .error .nullCandidate

/-- One iteration of the split loop of `try_splits`
(parallel_worker.c:311-343) for a valid right-hand ordinal `u`:
fetch `P[bitmap & ~(1<<u)]` and `P[1<<u]` (crash `nullJoinInput` if either is
`NULL`, as `make_join_rel` dereferences both), build and finalize the join
(gather paths requested iff the sub_rels list is not the full level), and run
the keep-the-minimum update. -/
def ldStep (o : Oracle) (bitmap subLen n : Nat) (P : DP) (u : Nat) :
    Except Crash DP :=
  let lb := bitmap &&& (mask32 - (1 <<< u))
  match P lb, P (1 <<< u) with
  | some lr, some rr =>
    let jr := (o.mkJoin lr rr).map (fun j => o.finalizeRel j (decide (subLen ≠ n)))
    dpUpdate P bitmap jr
  | _, _ => .error .nullJoinInput

/-- `try_splits` (parallel_worker.c:264): left-deep splitter over one
admissible sub_rels list. -/
def trySplits (o : Oracle) (subRels : List Nat) (constr : List (Nat × Nat))
    (P : DP) (n : Nat) : Except Crash DP :=
  let bitmap := mkBitmap subRels
  subRels.foldlM
    (fun P u =>
      if splitsValid constr subRels u then ldStep o bitmap subRels.length n P u
      else .ok P)
    P

/-! ## Bushy splitter (`try_splits_b`) -/

/-- The `Spower` list built in the `i < list_length(constr)` branch of
`try_splits_b` (parallel_worker.c:379-446), as a function of which of the
constraint's three ordinals are present in the sub_rels. -/
def spowerConstr (pres : Nat → Bool) (q1 q2 q3 : Nat) : List (List Nat) :=
  if pres q3 then
    if pres q2 then
      if pres q1 then [[q3], [q2], [q1, q2], [q1, q3], [q1, q2, q3]]
      else [[q3], [q2]]
    else
      if pres q1 then [[q3], [q1], [q1, q3]] else [[q3]]
  else
    if pres q2 then
      if pres q1 then [[q2], [q1, q2], [q1]] else [[q2]]
    else
      if pres q1 then [[q1]] else []

/-- The `Spower` list built in the unconstrained (`i >= list_length(constr)`)
branch of `try_splits_b` (parallel_worker.c:448-533). -/
def spowerDefault (pres : Nat → Bool) (q1 q2 q3 : Nat) : List (List Nat) :=
  if pres q3 then
    if pres q2 then
      if pres q1 then
        [[q3], [q2], [q2, q3], [q1], [q1, q2], [q1, q3], [q1, q2, q3]]
      else [[q3], [q2], [q2, q3]]
    else
      if pres q1 then [[q3], [q1], [q1, q3]] else [[q3]]
  else
    if pres q2 then
      if pres q1 then [[q2], [q1, q2], [q1]] else [[q2]]
    else
      if pres q1 then [[q1]] else []

/-- One iteration of the final loop of `try_splits_b`
(parallel_worker.c:536-571) for one candidate left part `L`: compute
`bitmapl`, skip the empty and full splits, take `bitmapr = bitmap - bitmapl`,
and run the same join / keep-the-minimum update as the left-deep splitter. -/
def bStep (o : Oracle) (bitmap subLen n : Nat) (P : DP) (L : List Nat) :
    Except Crash DP :=
  let bl := mkBitmap L
  if bl = 0 || bl = bitmap then .ok P
  else
    let br := bitmap - bl
    match P bl, P br with
    | some lr, some rr =>
      let jr := (o.mkJoin lr rr).map (fun j => o.finalizeRel j (decide (subLen ≠ n)))
      dpUpdate P bitmap jr
    | _, _ => .error .nullJoinInput

/-- `try_splits_b` (parallel_worker.c:353): bushy splitter.  The candidate
left parts `A` are accumulated by `cartesian_product` over the groups of
three (loop bound `3*i + 2 < n`, i.e. `i` over `range (n / 3)`), using the
constraint's ordinals while constraints remain and the default ordinals
`3i, 3i+1, 3i+2` beyond them. -/
def trySplitsB (o : Oracle) (subRels : List Nat) (constr : List (Nat × Nat × Nat))
    (P : DP) (n : Nat) : Except Crash DP :=
  let bitmap := mkBitmap subRels
  let pres := fun q => subRels.contains q
  let A := (List.range (n / 3)).foldl
    (fun A i =>
      if h : i < constr.length then
        let c := constr.get ⟨i, h⟩
        cartesian_product A (spowerConstr pres c.1 c.2.1 c.2.2)
      else
        cartesian_product A (spowerDefault pres (3 * i) (3 * i + 1) (3 * i + 2)))
    []
  A.foldlM (bStep o bitmap subRels.length n) P

/-! ## Worker (`worker`, parallel_worker.c:588 / allpaths.c:640) -/

/-- Insertion step of the size-ascending sort of the admissible sets,
modelling `list_qsort(join_res, ptr_less)` with `ptr_less` comparing list
lengths. -/
def insertByLen (q : List Nat) : List (List Nat) → List (List Nat)
  | [] => [q]
  | x :: xs => if x.length ≤ q.length then x :: insertByLen q xs else q :: x :: xs

/-- Sort the admissible-set list ascending by cardinality
(`list_qsort(join_res, ptr_less)`). -/
def sortByLen (l : List (List Nat)) : List (List Nat) :=
  l.foldl (fun acc q => insertByLen q acc) []

/-- Seed the DP table singletons: `P[1 << i] = list_nth(initial_rels, i)` for
`i < levels_needed` (out-of-range `list_nth` leaves the slot `NULL`). -/
def seedSingles (initial_rels : List Rel) (n : Nat) : DP :=
  (List.range n).foldl (fun P i => updDP P (1 <<< i) (initial_rels.get? i))
    (fun _ => none)

/-- `worker` (parallel_worker.c:588): derive the partition's constraints and
admissible sets, seed the DP singletons, sort ascending by size, run the
splitter on every non-singleton admissible set, and finally copy
`*(P[(1 << levels_needed) - 1])` — a null dereference (`nullFinal`) when that
entry was never filled. -/
def worker (o : Oracle) (initial_rels : List Rel)
    (levels_needed part_id n_workers p_type : Nat) : Except Crash Rel :=
  let P1 := seedSingles initial_rels levels_needed
  let finish : Except Crash DP → Except Crash Rel := fun r =>
    match r with
    | .error e => .error e
    | .ok P =>
      match P (2 ^ levels_needed - 1) with
      | some best => .ok best
      | none => .error .nullFinal
  if p_type = 2 then
    let constr := part_constraints levels_needed part_id n_workers
    let join_res := sortByLen (adm_join_results levels_needed constr)
    finish (join_res.foldlM
      (fun P q => if q.length > 1 then trySplits o q constr P levels_needed else .ok P)
      P1)
  else if p_type = 3 then
    let constr := part_constraints_b levels_needed part_id n_workers
    let join_res := sortByLen (adm_join_results_b levels_needed constr)
    finish (join_res.foldlM
      (fun P q => if q.length > 1 then trySplitsB o q constr P levels_needed else .ok P)
      P1)
  else .error .badConfig

/-! ## Worker orchestrator (`parallel_join_search`, allpaths.c:734) -/

/-- `parallel_join_search` (allpaths.c:734-790): run every worker, then merge.
The merge (allpaths.c:775-787) keeps `best` pointing at worker 0's output and
compares each later worker's cost against `best->optimal` — worker 0's cost —
replacing `optimal` whenever `that_path->total_cost < best_path->total_cost`;
so the returned relation is that of the last worker whose cost beats worker
0's (or worker 0's own). -/
def parallel_join_search (o : Oracle) (initial_rels : List Rel)
    (levels_needed n_workers p_type : Nat) : Except Crash Rel := do
  let outs ← (List.range n_workers).mapM
    (fun part_id => worker o initial_rels levels_needed part_id n_workers p_type)
  match outs with
  | [] => .error .badConfig
  | best0 :: rest =>
    .ok (rest.foldl (fun optimal that =>
      if that.cost < best0.cost then that else optimal) best0)

/-- The join-search dispatch of `make_rel_from_joinlist` (allpaths.c:3382-3411)
with the shipped defaults `join_search_hook = NULL` and `enable_geqo = false`
(allpaths.c:793,802): a single joinlist node is returned as is; an even
number of levels goes to `parallel_join_search(root, levels, rels, 1, 2)`;
anything else goes to `standard_join_search`.  There is no capacity branch of
any kind. -/
inductive JoinSearchCall where
  | single
  | parallel (n_workers p_type : Nat)
  | standard
deriving DecidableEq, Repr

/-- Dispatcher selecting which search runs for a given `levels_needed`. -/
def joinSearchDispatch (levels_needed : Nat) : JoinSearchCall :=
  if levels_needed = 1 then .single
  else if levels_needed % 2 = 0 then .parallel 1 2
  else .standard

/-! ## Clump assembler (`parallel_eval.c`) -/

/-- `bms_num_members` of a relids bitmap (bitmaps are 32-bit in this code). -/
def popCount32 (b : Nat) : Nat :=
  (List.range 32).countP (fun i => b.testBit i)

/-- The clump size used by `force_merge_clump`:
`bms_num_members(rel->relids)`. -/
def relSize (r : Rel) : Nat := popCount32 r.relids

/-- The scan loop of `force_merge_clump` (parallel_eval.c:172-197): walk the
clump list for the first member that `make_join_rel` can join with `rel`; on
success return the finalized join together with the list with that member
deleted (`list_delete_cell`); gather paths are requested when the join covers
fewer than `levels_needed` relations. -/
def scanJoin (o : Oracle) (levels_needed : Nat) (lst : List Rel) (rel : Rel) :
    Option (List Rel × Rel) :=
  match lst with
  | [] => none
  | x :: xs =>
    match o.mkJoin x rel with
    | some j =>
      some (xs, o.finalizeRel j (decide (popCount32 j.relids < levels_needed)))
    | none =>
      match scanJoin o levels_needed xs rel with
      | some pr => some (x :: pr.1, pr.2)
      | none => none

/-- The tail walk of the sorted insertion in `force_merge_clump`
(parallel_eval.c:206-213): insert `rel` before the first strictly smaller
clump, or at the end. -/
def insertTail (rel : Rel) : List Rel → List Rel
  | [] => [rel]
  | y :: ys => if relSize rel > relSize y then rel :: y :: ys else y :: insertTail rel ys

/-- The insertion step of `force_merge_clump` (parallel_eval.c:198-214):
an empty list or a size-1 clump is appended at the end; a clump larger than
the head is prepended; otherwise the tail walk finds the spot (ties fall
after existing clumps of equal size, i.e. discovery order). -/
def insertDesc (lst : List Rel) (rel : Rel) : List Rel :=
  if lst.isEmpty || relSize rel = 1 then lst ++ [rel]
  else
    match lst with
    | [] => [rel]
    | x :: xs =>
      if relSize rel > relSize x then rel :: x :: xs
      else x :: insertTail rel xs

/-- `force_merge_clump` (parallel_eval.c:161-215): look for a clump the new
clump can join; on success recurse with the enlarged clump on the shortened
list; when no merge target exists, insert the clump into the list in
size-descending order. -/
def force_merge_clump (o : Oracle) (levels_needed : Nat) (lst : List Rel)
    (rel : Rel) : List Rel :=
  match h : scanJoin o levels_needed lst rel with
  | some pr => force_merge_clump o levels_needed pr.1 pr.2
  | none => insertDesc lst rel
termination_by lst.length
decreasing_by
  have key : ∀ (l : List Rel) (q : Rel) (pr' : List Rel × Rel),
      scanJoin o levels_needed l q = some pr' → pr'.1.length + 1 = l.length := by
    intro l
    induction l with
    | nil => intro q pr' hh; simp [scanJoin] at hh
    | cons x xs ih =>
      intro q pr' hh
      simp only [scanJoin] at hh
      cases hj : o.mkJoin x q with
      | some j => rw [hj] at hh; cases hh; simp
      | none =>
        rw [hj] at hh
        cases hs : scanJoin o levels_needed xs q with
        | some pr2 =>
          rw [hs] at hh
          cases hh
          have := ih q pr2 hs
          simp only [List.length_cons]
          omega
        | none => rw [hs] at hh; cases hh
  have := key lst rel pr h
  omega

/-- The guide tree handed to `construct_rel_based_on_plan`; a leaf carries
one base-relation index and `relids` recovers the `bt->relids` list of every
node. -/
inductive BinaryTree where
  | leaf (relid : Nat)
  | node (l r : BinaryTree)
deriving Repr

/-- The relids list of a guide-tree node (used only through its length, for
the gather-path decision). -/
def BinaryTree.relids : BinaryTree → List Nat
  | .leaf relid => [relid]
  | .node l r => l.relids ++ r.relids

/-- `try_merge_clump` (parallel_eval.c:115-159): resolve a guide tree to a
clump list.  A leaf yields its base relation; an internal node concatenates
if either side is unresolved (more than one clump); otherwise, if the join is
desirable and `make_join_rel` succeeds, the finalized join is the single
clump, else the two clumps stay unmerged.  (The C asserts both sides are
singletons in the join branch.) -/
def tryMergeClump (o : Oracle) (levels_needed : Nat) (initial_rels : List Rel) :
    BinaryTree → List Rel
  | .leaf relid => [initial_rels.getD relid default]
  | .node lt rt =>
    let list1 := tryMergeClump o levels_needed initial_rels lt
    let list2 := tryMergeClump o levels_needed initial_rels rt
    if list1.length > 1 || list2.length > 1 then list1 ++ list2
    else
      match list1, list2 with
      | [rel1], [rel2] =>
        if o.desirable rel1 rel2 then
          match o.mkJoin rel1 rel2 with
          | some j =>
            [o.finalizeRel j (decide ((BinaryTree.node lt rt).relids.length < levels_needed))]
          | none => [rel1] ++ [rel2]
        else [rel1] ++ [rel2]
      | _, _ => list1 ++ list2

/-- The clump list left after the guide-tree walk and (when more than one
clump remains) the exhaustive force-merge pass of
`construct_rel_based_on_plan` (parallel_eval.c:90-108). -/
def finalClumps (o : Oracle) (levels_needed : Nat) (initial_rels : List Rel)
    (bt : BinaryTree) : List Rel :=
  let relList := tryMergeClump o levels_needed initial_rels bt
  if relList.length > 1 then
    relList.foldl (fun f r => force_merge_clump o levels_needed f r) []
  else relList

/-- `construct_rel_based_on_plan` (parallel_eval.c:83-113): `NULL` unless
exactly one clump remains. -/
def construct_rel_based_on_plan (o : Oracle) (levels_needed : Nat)
    (initial_rels : List Rel) (bt : BinaryTree) : Option Rel :=
  match finalClumps o levels_needed initial_rels bt with
  | [r] => some r
  | _ => none

/-! ## Spec-side predicates, for comparing the code's behaviour with the
specification's wording -/

/-- The spec's notion of a constraint set admitting a left-deep join order:
every ordered pair `(before, after)` is respected, i.e. `before` occurs
earlier in the order than `after` (spec section 3, OrderConstraint). -/
def admitsOrder (constr : List (Nat × Nat)) (ord : List Nat) : Bool :=
  constr.all (fun c => decide (ord.indexOf c.1 < ord.indexOf c.2))

/-- Stated from the claim's wording, for comparison with `splitsValid` (the
source's rule): "u is a valid right-hand element iff no active constraint
requires some other member of S to precede u", i.e. no constraint pair has
`u` as its after-element with a before-element that is another member of the
sub_rels. -/
def specValidRightHand (constr : List (Nat × Nat)) (subRels : List Nat)
    (u : Nat) : Bool :=
  !(constr.any (fun c => c.2 = u && subRels.contains c.1 && !(c.1 = u : Bool)))

/-- The bitmaps of an admissible-set list (the index set a worker's splitter
passes over). -/
def admBitmaps (levels_needed : Nat) (constr : List (Nat × Nat)) : List Nat :=
  (adm_join_results levels_needed constr).map mkBitmap

/-! ## Concrete inputs used by the evaluation theorems -/

/-- Four base relations with singleton bitmaps `1, 2, 4, 8` and zero cost. -/
def rels4 : List Rel := [⟨1, 0⟩, ⟨2, 0⟩, ⟨4, 0⟩, ⟨8, 0⟩]

/-- Six base relations with singleton bitmaps and zero cost. -/
def rels6 : List Rel := [⟨1, 0⟩, ⟨2, 0⟩, ⟨4, 0⟩, ⟨8, 0⟩, ⟨16, 0⟩, ⟨32, 0⟩]

/-- Cost table for the final (full-coverage) joins of the four-relation
orchestrator run: keyed by the (left, right) bitmaps of the last split. -/
def pjsFinalCost (lb rb : Nat) : Int :=
  if lb = 13 ∧ rb = 2 then 10 else if lb = 7 ∧ rb = 8 then 12
  else if lb = 14 ∧ rb = 1 then 5 else if lb = 11 ∧ rb = 4 then 7 else 0

/-- Fully-connected join function: every pair joins; full-coverage joins get
their cost from `pjsFinalCost`, all others cost 0. -/
def cexJoin1 (l r : Rel) : Option Rel :=
  some { relids := l.relids ||| r.relids,
         cost := if l.relids ||| r.relids = 15 then pjsFinalCost l.relids r.relids else 0 }

/-- Oracle for the four-relation orchestrator run. -/
def cexOracle1 : Oracle :=
  { mkJoin := cexJoin1, finalizeRel := fun j _ => j, desirable := fun _ _ => true }

/-- An oracle rejecting every join (no legal join order exists). -/
def failOracle : Oracle :=
  { mkJoin := fun _ _ => none, finalizeRel := fun j _ => j, desirable := fun _ _ => false }

/-- Cost table keyed by the two singleton bitmaps of a run's first join; the
four interesting starts pin down the four (workers = 4) partitions. -/
def startCost (a b : Nat) : Int :=
  if a = 1 ∧ b = 4 then 10 else if a = 2 ∧ b = 4 then 5
  else if a = 1 ∧ b = 8 then 7 else if a = 2 ∧ b = 8 then 100 else 1000

/-- Fully-connected join function over six relations whose plan cost is the
cost of the first (singleton-singleton) join, propagated upward. -/
def join62 (l r : Rel) : Option Rel :=
  some { relids := l.relids ||| r.relids,
         cost := if popCount32 l.relids = 1 ∧ popCount32 r.relids = 1 then
             startCost l.relids r.relids
           else l.cost + r.cost }

/-- Oracle for the six-relation workers=1 versus workers=4 comparison. -/
def o62 : Oracle :=
  { mkJoin := join62, finalizeRel := fun j _ => j, desirable := fun _ _ => true }

/-- A DP table holding relations for all singletons and all two-element
subsets of `{0, 1, 2}` (as earlier splitter invocations would leave it). -/
def P8 : DP := fun b =>
  if b = 1 then some ⟨1, 0⟩ else if b = 2 then some ⟨2, 0⟩
  else if b = 4 then some ⟨4, 0⟩ else if b = 6 then some ⟨6, 0⟩
  else if b = 5 then some ⟨5, 0⟩ else if b = 3 then some ⟨3, 0⟩ else none

/-- An oracle that joins `{1,2}` with `{0}` but rejects every other pair. -/
def cexOracle8 : Oracle :=
  { mkJoin := fun l r => if l.relids = 6 ∧ r.relids = 1 then some ⟨7, 10⟩ else none,
    finalizeRel := fun j _ => j, desirable := fun _ _ => true }

/-- DP table seeded with the two singletons of a two-relation search. -/
def P5 : DP := fun b =>
  if b = 1 then some ⟨1, 0⟩ else if b = 2 then some ⟨2, 0⟩ else none

/-- Join function marking which split was taken: the split with left `{0}`,
right `{1}` yields cost 99, the split with left `{1}`, right `{0}` yields
cost 1, and nothing else joins. -/
def probeJoin5 (l r : Rel) : Option Rel :=
  if l.relids = 1 ∧ r.relids = 2 then some ⟨3, 99⟩
  else if l.relids = 2 ∧ r.relids = 1 then some ⟨3, 1⟩ else none

/-- Oracle for the validity-rule probe. -/
def probeOracle5 : Oracle :=
  { mkJoin := probeJoin5, finalizeRel := fun j _ => j, desirable := fun _ _ => true }

/-- One splitter invocation, as the worker issues them: either
`try_splits(root, subRels, constr, P, n)` or
`try_splits_b(root, subRels, constr, P, n)`. -/
inductive SplitCall where
  | ld (subRels : List Nat) (constr : List (Nat × Nat)) (n : Nat)
  | bushy (subRels : List Nat) (constr : List (Nat × Nat × Nat)) (n : Nat)

/-- Run one splitter invocation against a DP table. -/
def runSplitter (o : Oracle) (P : DP) : SplitCall → Except Crash DP
  | .ld s c n => trySplits o s c P n
  | .bushy s c n => trySplitsB o s c P n

/-- Run a sequence of splitter invocations against a DP table, stopping at
the first crash — the shape of the worker's splitting loop. -/
def runSplitters (o : Oracle) (calls : List SplitCall) (P : DP) :
    Except Crash DP :=
  calls.foldlM (fun P c => runSplitter o P c) P

/-- An oracle for which every join succeeds, producing the union bitmap at
cost 5. -/
def wOracle : Oracle :=
  { mkJoin := fun l r => some ⟨l.relids ||| r.relids, 5⟩,
    finalizeRel := fun j _ => j, desirable := fun _ _ => true }

/-- DP table with both singletons filled and a cost-10 entry already
recorded at bitmap 3. -/
def wP4 : DP := fun b =>
  if b = 1 then some ⟨1, 0⟩ else if b = 2 then some ⟨2, 0⟩
  else if b = 3 then some ⟨3, 10⟩ else none

/-- Clump-list order invariant maintained by `force_merge_clump`:
non-increasing clump size (`bms_num_members`), front to back. -/
abbrev SortedDesc (l : List Rel) : Prop :=
  l.Chain' (fun a b => relSize b ≤ relSize a)

/-- Every clump in the list covers at least one relation. -/
abbrev PosSizes (l : List Rel) : Prop := ∀ x ∈ l, 1 ≤ relSize x

/-- The oracle's joins always cover at least one relation — true of
`make_join_rel`, whose result's relids is the union of two nonempty relid
sets. -/
def OracleJoinPos (o : Oracle) : Prop :=
  ∀ a b j f, o.mkJoin a b = some j → 1 ≤ relSize (o.finalizeRel j f)

/-- Constant-join oracle used by the force-merge witness. -/
def cOracle9 : Oracle :=
  { mkJoin := fun _ _ => some ⟨1, 0⟩, finalizeRel := fun j _ => j,
    desirable := fun _ _ => true }

/-- A size-descending clump list: sizes 2, then 1. -/
def wClumps : List Rel := [⟨3, 0⟩, ⟨4, 0⟩]

/-- Little-endian bit assembly: the partition id whose bit `i` is `f i`, for
`i < k` (used to pick the partition admitting a given join order). -/
def bitsToNat (f : Nat → Bool) : Nat → Nat
  | 0 => 0
  | k + 1 => (if f 0 then 1 else 0) + 2 * bitsToNat (fun i => f (i + 1)) k

/-! ## Claim theorems -/

/-- C1 (code bug): with three workers whose individual results cost 10, 5 and
7, `parallel_join_search` returns the cost-7 relation, not the cheapest
(cost-5) one: the merge loop keeps comparing each later worker against
worker 0's cost (`best` is never re-pointed at the running winner,
allpaths.c:775-787), so the adopted result is the last worker that beats
worker 0 rather than the global minimum the spec requires. -/
theorem C1_orchestrator_not_global_min :
    parallel_join_search cexOracle1 rels4 4 3 2 = .ok ⟨15, 7⟩ ∧
    worker cexOracle1 rels4 4 0 3 2 = .ok ⟨15, 10⟩ ∧
    worker cexOracle1 rels4 4 1 3 2 = .ok ⟨15, 5⟩ ∧
    worker cexOracle1 rels4 4 2 3 2 = .ok ⟨15, 7⟩ ∧
    (5 : Int) < 7 :=
  ⟨rfl, rfl, rfl, rfl, by decide⟩

/-- C2 counterexample: with `n_workers = 3` (1) the legal left-deep order
`[1, 0, 3, 2]` is admitted by no partition id in `[0, 3)`, and (2) the
admissible subset `{1, 3}` (bitmap 10) lies in the unconstrained
(`workers = 1`) search space but in no partition's space, so the union of the
three spaces is a strict subset of the full space; and (3) even at the
power-of-two count `workers = 4`, a six-relation fully-connected input exists
(oracle `o62`) on which `search` with workers=1 wins with cost 5 while
workers=4 returns cost 7 — the winning costs differ. -/
theorem C2_counterexample :
    admitsOrder (part_constraints 4 0 3) [1, 0, 3, 2] = false ∧
    admitsOrder (part_constraints 4 1 3) [1, 0, 3, 2] = false ∧
    admitsOrder (part_constraints 4 2 3) [1, 0, 3, 2] = false ∧
    (admBitmaps 4 (part_constraints 4 0 1)).contains 10 = true ∧
    (admBitmaps 4 (part_constraints 4 0 3)).contains 10 = false ∧
    (admBitmaps 4 (part_constraints 4 1 3)).contains 10 = false ∧
    (admBitmaps 4 (part_constraints 4 2 3)).contains 10 = false ∧
    parallel_join_search o62 rels6 6 1 2 = .ok ⟨63, 5⟩ ∧
    parallel_join_search o62 rels6 6 4 2 = .ok ⟨63, 7⟩ :=
  ⟨by decide, by decide, by decide, by decide, by decide, by decide, by decide, rfl, rfl⟩

/-- C3 (code bug): on a two-relation input whose only join is illegal, the
full-coverage DP entry `P[2^N - 1]` is still `NULL` after the splitter pass,
and the worker's final statement `*best = *(P[(1 << levels_needed) - 1])`
(parallel_worker.c:667) dereferences that `NULL` — modelled as the
`nullFinal` crash — instead of surfacing a NoLegalJoinOrder failure. -/
theorem C3_null_final_dereference :
    worker failOracle [⟨1, 0⟩, ⟨2, 0⟩] 2 0 1 2 = .error .nullFinal := rfl

/-- C5 counterexample: for the sub_rels `[0, 1]` under the single constraint
`(0, 1)` (table 0 before table 1), the code treats `u = 1` as a valid
right-hand element and `u = 0` as invalid — the exact opposite of the claim's
rule, which would invalidate `u = 1` (constraint requires member 0 of S to
precede 1) and validate `u = 0`.  The splitter run confirms it: the final DP
entry is the cost-99 result of the `u = 1` split (left `{0}`, right `{1}`),
and the `u = 0` split (which would record cost 1) is never attempted. -/
theorem C5_counterexample :
    splitsValid [(0, 1)] [0, 1] 1 = true ∧
    specValidRightHand [(0, 1)] [0, 1] 1 = false ∧
    splitsValid [(0, 1)] [0, 1] 0 = false ∧
    specValidRightHand [(0, 1)] [0, 1] 0 = true ∧
    (trySplits probeOracle5 [0, 1] [(0, 1)] P5 2).map (fun P' => P' 3) =
      .ok (some ⟨3, 99⟩) :=
  ⟨by decide, by decide, by decide, by decide, rfl⟩

/-- C6 counterexample: for the odd relation count `N = 3` with worker count 1
the generator yields only `[[0], [1], [0, 1]]`; the size-2 subset `{0, 2}` is
never enumerated (ordinal 2 falls outside every pair group), contradicting
"every subset of size 2 and up" for every `N`. -/
theorem C6_counterexample :
    ((adm_join_results 3 (part_constraints 3 0 1)).any
      (fun l => decide (l.toFinset = ({0, 2} : Finset Nat)))) = false := by
  decide

/-- C7 (code bug): there is no capacity check anywhere in the search entry
paths.  The dispatcher of `make_rel_from_joinlist` sends `N = 33` straight to
`standard_join_search` and `N = 34` straight to
`parallel_join_search(..., 1, 2)`; constraint derivation at `N = 33` runs
normally (the worker-1 constraint set is computed as `[]`).  No
TooManyRelations error value exists in the code. -/
theorem C7_no_capacity_check :
    joinSearchDispatch 33 = .standard ∧
    joinSearchDispatch 34 = .parallel 1 2 ∧
    part_constraints 33 0 1 = [] :=
  ⟨rfl, rfl, rfl⟩

/-- C8 counterexample: running `try_splits` on the sub_rels `[0, 1, 2]` with
no constraints, over a DP table whose smaller entries are all filled, with an
oracle that joins `{1,2}` with `{0}` but rejects `{0,2}` with `{1}`: the
`u = 0` split records `P[7]`, then the `u = 1` split's `make_join_rel`
returns `NULL`, and the keep-the-minimum comparison
(parallel_worker.c:339) dereferences the `NULL` candidate — the claimed
precondition (non-null `P[bitmap]` implies non-null `join_rel`) is false. -/
theorem C8_counterexample :
    trySplits cexOracle8 [0, 1, 2] [] P8 3 = .error .nullCandidate := rfl

/-! ## Helper lemmas about `Except` folds -/

theorem except_bind_ok {α β : Type} (a : α) (k : α → Except Crash β) :
    (Except.ok a >>= k) = k a := rfl

theorem except_bind_error {α β : Type} (e : Crash) (k : α → Except Crash β) :
    ((Except.error e : Except Crash α) >>= k) = Except.error e := rfl

theorem foldlM_ok_inv {α β : Type} (f : α → β → Except Crash α) (Q : α → Prop)
    (hf : ∀ x b y, f x b = .ok y → Q x → Q y) :
    ∀ (l : List β) (a a' : α), l.foldlM f a = .ok a' → Q a → Q a' := by
  intro l
  induction l with
  | nil =>
    intro a a' h hQ
    cases h
    exact hQ
  | cons x xs ih =>
    intro a a' h hQ
    rw [List.foldlM_cons] at h
    cases hx : f a x with
    | error e => rw [hx, except_bind_error] at h; cases h
    | ok b => rw [hx, except_bind_ok] at h; exact ih b a' h (hf a x b hx hQ)

theorem foldlM_ne_error {α β : Type} (f : α → β → Except Crash α) (e : Crash)
    (hf : ∀ x b, f x b ≠ .error e) :
    ∀ (l : List β) (a : α), l.foldlM f a ≠ .error e := by
  intro l
  induction l with
  | nil => intro a h; cases h
  | cons x xs ih =>
    intro a h
    rw [List.foldlM_cons] at h
    cases hx : f a x with
    | error e' =>
      rw [hx, except_bind_error] at h
      injection h with h2
      exact hf a x (by rw [hx, h2])
    | ok b => rw [hx, except_bind_ok] at h; exact ih b h

theorem foldlM_if_filter {α β : Type} (f : α → β → Except Crash α) (p : β → Bool) :
    ∀ (l : List β) (a : α),
      l.foldlM (fun s x => if p x then f s x else .ok s) a =
        (l.filter p).foldlM f a := by
  intro l
  induction l with
  | nil => intro a; rfl
  | cons x xs ih =>
    intro a
    rw [List.foldlM_cons, List.filter_cons]
    by_cases hp : p x
    · simp only [hp, if_true]
      cases hfa : f a x with
      | error e => rw [except_bind_error, List.foldlM_cons, hfa, except_bind_error]
      | ok b => rw [except_bind_ok, List.foldlM_cons, hfa, except_bind_ok, ih]
    · simp only [hp, if_false, Bool.false_eq_true, except_bind_ok, ih]

/-! ## DP-update and splitter step lemmas -/

theorem dpUpdate_entry {P : DP} {bitmap : Nat} {jr : Option Rel} {P' : DP}
    {B : Nat} {r : Rel} (h : dpUpdate P bitmap jr = .ok P') (hB : P B = some r) :
    ∃ r', P' B = some r' ∧ (r' = r ∨ r'.cost < r.cost) := by
  unfold dpUpdate at h
  by_cases hBb : B = bitmap
  · subst hBb
    rw [hB] at h
    cases jr with
    | none => cases h
    | some j =>
      injection h with h2
      subst h2
      by_cases hc : r.cost > j.cost
      · exact ⟨j, by simp [hc, updDP], Or.inr hc⟩
      · exact ⟨r, by simp [hc, hB], Or.inl rfl⟩
  · split at h
    · injection h with h2
      subst h2
      exact ⟨r, by simp [updDP, hBb, hB], Or.inl rfl⟩
    · injection h with h2
      subst h2
      refine ⟨r, ?_, Or.inl rfl⟩
      split
      · simp [updDP, hBb, hB]
      · exact hB
    · cases h

theorem ldStep_entry {o : Oracle} {bitmap subLen n : Nat} {P : DP} {u : Nat}
    {P' : DP} {B : Nat} {r : Rel} (h : ldStep o bitmap subLen n P u = .ok P')
    (hB : P B = some r) :
    ∃ r', P' B = some r' ∧ (r' = r ∨ r'.cost < r.cost) := by
  unfold ldStep at h
  dsimp only at h
  split at h
  · exact dpUpdate_entry h hB
  · cases h

theorem bStep_entry {o : Oracle} {bitmap subLen n : Nat} {P : DP}
    {L : List Nat} {P' : DP} {B : Nat} {r : Rel}
    (h : bStep o bitmap subLen n P L = .ok P') (hB : P B = some r) :
    ∃ r', P' B = some r' ∧ (r' = r ∨ r'.cost < r.cost) := by
  unfold bStep at h
  dsimp only at h
  split at h
  · injection h with h2; subst h2; exact ⟨r, hB, Or.inl rfl⟩
  · split at h
    · exact dpUpdate_entry h hB
    · cases h

theorem trySplits_entry {o : Oracle} {s : List Nat} {c : List (Nat × Nat)}
    {P : DP} {n : Nat} {P' : DP} {B : Nat} {r : Rel}
    (h : trySplits o s c P n = .ok P') (hB : P B = some r) :
    ∃ r', P' B = some r' ∧ (r' = r ∨ r'.cost < r.cost) := by
  refine foldlM_ok_inv _ (fun Pm => ∃ r', Pm B = some r' ∧ (r' = r ∨ r'.cost < r.cost))
    ?_ s P P' h ⟨r, hB, Or.inl rfl⟩
  intro x b y hxy hQ
  obtain ⟨r1, hx1, hor1⟩ := hQ
  by_cases hv : splitsValid c s b
  · rw [if_pos hv] at hxy
    obtain ⟨r2, hy2, hor2⟩ := ldStep_entry hxy hx1
    refine ⟨r2, hy2, ?_⟩
    rcases hor2 with h2 | h2
    · rw [h2]; exact hor1
    · rcases hor1 with h1 | h1
      · rw [h1] at h2; exact Or.inr h2
      · exact Or.inr (lt_trans h2 h1)
  · rw [if_neg hv] at hxy
    injection hxy with h2
    subst h2
    exact ⟨r1, hx1, hor1⟩

theorem trySplitsB_entry {o : Oracle} {s : List Nat} {c : List (Nat × Nat × Nat)}
    {P : DP} {n : Nat} {P' : DP} {B : Nat} {r : Rel}
    (h : trySplitsB o s c P n = .ok P') (hB : P B = some r) :
    ∃ r', P' B = some r' ∧ (r' = r ∨ r'.cost < r.cost) := by
  refine foldlM_ok_inv _ (fun Pm => ∃ r', Pm B = some r' ∧ (r' = r ∨ r'.cost < r.cost))
    ?_ _ P P' h ⟨r, hB, Or.inl rfl⟩
  intro x b y hxy hQ
  obtain ⟨r1, hx1, hor1⟩ := hQ
  obtain ⟨r2, hy2, hor2⟩ := bStep_entry hxy hx1
  refine ⟨r2, hy2, ?_⟩
  rcases hor2 with h2 | h2
  · rw [h2]; exact hor1
  · rcases hor1 with h1 | h1
    · rw [h1] at h2; exact Or.inr h2
    · exact Or.inr (lt_trans h2 h1)

/-- C4: monotonicity of the DP table.  Across any sequence of `try_splits` /
`try_splits_b` invocations that completes without a crash, a recorded entry
at bitmap `B` is only ever replaced by one of strictly lower total cost
(`dpUpdate` keeps the minimum), so the recorded cost at `B` never
increases: the final entry is either the original relation or one that is
strictly cheaper. -/
theorem C4_dp_monotone :
    ∀ (o : Oracle) (calls : List SplitCall) (P : DP) (B : Nat) (r : Rel)
      (res : Option Rel),
      P B = some r →
      (runSplitters o calls P).map (fun Pf => Pf B) = .ok res →
      ∃ r', res = some r' ∧ (r' = r ∨ r'.cost < r.cost) := by
  intro o calls P B r res hB hrun
  cases hr : runSplitters o calls P with
  | error e => rw [hr] at hrun; cases hrun
  | ok Pf =>
    rw [hr] at hrun
    have hres : res = Pf B := by
      injection hrun with h2
      exact h2.symm
    subst hres
    refine foldlM_ok_inv _ (fun Pm => ∃ r', Pm B = some r' ∧ (r' = r ∨ r'.cost < r.cost))
      ?_ calls P Pf hr ⟨r, hB, Or.inl rfl⟩
    intro x b y hxy hQ
    obtain ⟨r1, hx1, hor1⟩ := hQ
    cases b with
    | ld s c n =>
      obtain ⟨r2, hy2, hor2⟩ := trySplits_entry hxy hx1
      refine ⟨r2, hy2, ?_⟩
      rcases hor2 with h2 | h2
      · rw [h2]; exact hor1
      · rcases hor1 with h1 | h1
        · rw [h1] at h2; exact Or.inr h2
        · exact Or.inr (lt_trans h2 h1)
    | bushy s c n =>
      obtain ⟨r2, hy2, hor2⟩ := trySplitsB_entry hxy hx1
      refine ⟨r2, hy2, ?_⟩
      rcases hor2 with h2 | h2
      · rw [h2]; exact hor1
      · rcases hor1 with h1 | h1
        · rw [h1] at h2; exact Or.inr h2
        · exact Or.inr (lt_trans h2 h1)

/-- C4 witness: one left-deep invocation on a table holding a cost-10 entry
at bitmap 3, with a cost-5 oracle, ends with the strictly cheaper entry. -/
theorem C4_dp_monotone_witness :
    ∃ r', (some (⟨3, 5⟩ : Rel)) = some r' ∧
      (r' = (⟨3, 10⟩ : Rel) ∨ r'.cost < (⟨3, 10⟩ : Rel).cost) :=
  C4_dp_monotone wOracle [SplitCall.ld [0, 1] [] 2] wP4 3 ⟨3, 10⟩
    (some ⟨3, 5⟩) rfl rfl

/-! ## Null-candidate safety lemmas -/

theorem dpUpdate_ne_nullCandidate {P : DP} {bitmap : Nat} {jr : Option Rel}
    (hjr : jr.isSome = true) :
    dpUpdate P bitmap jr ≠ .error .nullCandidate := by
  unfold dpUpdate
  split
  · intro h; cases h
  · intro h; cases h
  · simp at hjr

theorem ldStep_ne_nullCandidate {o : Oracle}
    (ho : ∀ a b, (o.mkJoin a b).isSome = true)
    (bitmap subLen n : Nat) (P : DP) (u : Nat) :
    ldStep o bitmap subLen n P u ≠ .error .nullCandidate := by
  unfold ldStep
  dsimp only
  split
  · next lr rr heq1 heq2 =>
    apply dpUpdate_ne_nullCandidate
    cases hj : o.mkJoin lr rr with
    | none => have := ho lr rr; rw [hj] at this; cases this
    | some j => rfl
  · intro h; injection h with h2; cases h2

theorem bStep_ne_nullCandidate {o : Oracle}
    (ho : ∀ a b, (o.mkJoin a b).isSome = true)
    (bitmap subLen n : Nat) (P : DP) (L : List Nat) :
    bStep o bitmap subLen n P L ≠ .error .nullCandidate := by
  unfold bStep
  dsimp only
  split
  · intro h; cases h
  · split
    · next lr rr heq1 heq2 =>
      apply dpUpdate_ne_nullCandidate
      cases hj : o.mkJoin lr rr with
      | none => have := ho lr rr; rw [hj] at this; cases this
      | some j => rfl
    · intro h; injection h with h2; cases h2

/-- C8 amended: the keep-the-minimum comparison dereferences the candidate
unconditionally, so it is null-safe only under the stronger precondition
that `make_join_rel` succeeded for the current split (the counterexample
shows the comparison is reachable with a `NULL` candidate).  Under an oracle
whose joins always succeed, neither splitter can reach the null-candidate
dereference. -/
theorem C8_amended_nonnull_safe :
    ∀ (o : Oracle), (∀ a b, (o.mkJoin a b).isSome = true) →
      ∀ (subRels : List Nat) (P : DP) (n : Nat) (c2 : List (Nat × Nat))
        (c3 : List (Nat × Nat × Nat)),
        trySplits o subRels c2 P n ≠ .error .nullCandidate ∧
        trySplitsB o subRels c3 P n ≠ .error .nullCandidate := by
  intro o ho subRels P n c2 c3
  constructor
  · unfold trySplits
    dsimp only
    apply foldlM_ne_error
    intro x b
    by_cases hv : splitsValid c2 subRels b
    · rw [if_pos hv]
      exact ldStep_ne_nullCandidate ho _ _ _ _ _
    · rw [if_neg hv]
      intro h; cases h
  · unfold trySplitsB
    dsimp only
    apply foldlM_ne_error
    intro x b
    exact bStep_ne_nullCandidate ho _ _ _ _ _

/-- C8 amended witness: instantiated at an always-successful oracle on a
two-relation table. -/
theorem C8_amended_witness :
    trySplits wOracle [0, 1] [] P5 2 ≠ .error .nullCandidate ∧
    trySplitsB wOracle [0, 1] [] P5 2 ≠ .error .nullCandidate :=
  C8_amended_nonnull_safe wOracle (fun _ _ => rfl) [0, 1] P5 2 [] []

/-- C5 amended: in `try_splits` an ordinal `u` of the sub_rels is treated as
a valid right-hand element iff no active constraint has `u` as its
before-element with its after-element also in the sub_rels (the source marks
the constraint's left-hand side invalid, parallel_worker.c:296-308); and the
splitter attempts a split exactly for the valid ordinals — invalid ordinals
produce no split (the loop is the fold of the split step over the valid
ordinals only). -/
theorem C5_amended_valid_rule :
    ∀ (constr : List (Nat × Nat)) (subRels : List Nat) (u : Nat),
      u ∈ subRels →
      ((splitsValid constr subRels u = true) ↔
        ∀ c ∈ constr, c.1 = u → c.2 ∉ subRels) ∧
      (∀ (o : Oracle) (P : DP) (n : Nat),
        trySplits o subRels constr P n =
          (subRels.filter (fun v => splitsValid constr subRels v)).foldlM
            (ldStep o (mkBitmap subRels) subRels.length n) P) := by
  intro constr subRels u hu
  constructor
  · unfold splitsValid
    simp only [Bool.not_eq_true', List.any_eq_false, Bool.and_eq_true,
      decide_eq_true_eq, List.contains, List.elem_iff, not_and]
    constructor
    · intro h c hc hc1 hc2
      exact h c hc ⟨hc1, hc1 ▸ hu⟩ hc2
    · intro h c hc hx
      exact h c hc hx.1
  · intro o P n
    exact foldlM_if_filter _ _ subRels P

/-! ## Clump-assembler lemmas -/

theorem force_merge_clump_eq (o : Oracle) (n : Nat) (lst : List Rel) (rel : Rel) :
    force_merge_clump o n lst rel =
      match scanJoin o n lst rel with
      | some pr => force_merge_clump o n pr.1 pr.2
      | none => insertDesc lst rel := by
  rw [force_merge_clump]
  split <;> simp [*]

theorem insertTail_sorted (rel : Rel) :
    ∀ (xs : List Rel) (x : Rel), SortedDesc (x :: xs) → relSize rel ≤ relSize x →
      SortedDesc (x :: insertTail rel xs) := by
  intro xs
  induction xs with
  | nil =>
    intro x _ hle
    exact List.chain'_cons.2 ⟨hle, List.chain'_singleton rel⟩
  | cons y ys ih =>
    intro x hs hle
    have hxy := (List.chain'_cons.1 hs).1
    have hyys := (List.chain'_cons.1 hs).2
    unfold insertTail
    split
    · next hgt =>
      exact List.chain'_cons.2 ⟨hle, List.chain'_cons.2 ⟨le_of_lt hgt, hyys⟩⟩
    · next hng =>
      exact List.chain'_cons.2 ⟨hxy, ih y hyys (le_of_not_lt hng)⟩

theorem insertTail_mem (rel : Rel) :
    ∀ (xs : List Rel) (z : Rel), z ∈ insertTail rel xs → z ∈ xs ∨ z = rel := by
  intro xs
  induction xs with
  | nil =>
    intro z hz
    simp only [insertTail, List.mem_singleton] at hz
    exact Or.inr hz
  | cons y ys ih =>
    intro z hz
    unfold insertTail at hz
    split at hz
    · rcases List.mem_cons.1 hz with h | h
      · exact Or.inr h
      · exact Or.inl h
    · rcases List.mem_cons.1 hz with h | h
      · exact Or.inl (h ▸ List.mem_cons_self y ys)
      · rcases ih z h with h2 | h2
        · exact Or.inl (List.mem_cons_of_mem y h2)
        · exact Or.inr h2

theorem insertDesc_sorted (lst : List Rel) (rel : Rel) (hs : SortedDesc lst)
    (hp : PosSizes lst) (hr : 1 ≤ relSize rel) : SortedDesc (insertDesc lst rel) := by
  unfold insertDesc
  by_cases hcond : (lst.isEmpty || decide (relSize rel = 1)) = true
  · rw [if_pos hcond]
    rw [Bool.or_eq_true] at hcond
    rcases hcond with h1 | h2
    · rw [List.isEmpty_iff.1 h1]
      exact List.chain'_singleton rel
    · have hr1 : relSize rel = 1 := of_decide_eq_true h2
      apply List.chain'_append.2
      refine ⟨hs, List.chain'_singleton rel, ?_⟩
      intro a ha b hb
      have hb' : b = rel := by have := hb; simp at this; exact this.symm
      rw [hb', hr1]
      exact hp a (List.mem_of_mem_getLast? ha)
  · rw [if_neg hcond]
    cases lst with
    | nil => exact List.chain'_singleton rel
    | cons x xs =>
      by_cases hgt : relSize rel > relSize x
      · simp only [if_pos hgt]
        exact List.chain'_cons.2 ⟨le_of_lt hgt, hs⟩
      · simp only [if_neg hgt]
        exact insertTail_sorted rel xs x hs (le_of_not_lt hgt)

theorem insertDesc_mem (lst : List Rel) (rel z : Rel)
    (hz : z ∈ insertDesc lst rel) : z ∈ lst ∨ z = rel := by
  unfold insertDesc at hz
  by_cases hcond : (lst.isEmpty || decide (relSize rel = 1)) = true
  · rw [if_pos hcond] at hz
    rcases List.mem_append.1 hz with h | h
    · exact Or.inl h
    · exact Or.inr (by simpa using h)
  · rw [if_neg hcond] at hz
    cases lst with
    | nil => exact Or.inr (by simpa using hz)
    | cons x xs =>
      by_cases hgt : relSize rel > relSize x
      · simp only [if_pos hgt] at hz
        rcases List.mem_cons.1 hz with h | h
        · exact Or.inr h
        · exact Or.inl h
      · simp only [if_neg hgt] at hz
        rcases List.mem_cons.1 hz with h | h
        · exact Or.inl (h ▸ List.mem_cons_self x xs)
        · rcases insertTail_mem rel xs z h with h2 | h2
          · exact Or.inl (List.mem_cons_of_mem x h2)
          · exact Or.inr h2

theorem sortedDesc_delete (l1 : List Rel) (x : Rel) (l2 : List Rel)
    (h : SortedDesc (l1 ++ x :: l2)) : SortedDesc (l1 ++ l2) := by
  rcases List.chain'_append.1 h with ⟨h1, h2, hlink⟩
  apply List.chain'_append.2
  refine ⟨h1, h2.tail, ?_⟩
  intro a ha b hb
  have hax : relSize x ≤ relSize a := hlink a ha x (by simp)
  have hxb : relSize b ≤ relSize x := (List.chain'_cons'.1 h2).1 b hb
  exact le_trans hxb hax

theorem scanJoin_decomp (o : Oracle) (n : Nat) :
    ∀ (lst : List Rel) (rel : Rel) (pr : List Rel × Rel),
      scanJoin o n lst rel = some pr →
      ∃ l1 x l2 j0, lst = l1 ++ x :: l2 ∧ pr.1 = l1 ++ l2 ∧
        o.mkJoin x rel = some j0 ∧
        pr.2 = o.finalizeRel j0 (decide (popCount32 j0.relids < n)) := by
  intro lst
  induction lst with
  | nil => intro rel pr h; simp [scanJoin] at h
  | cons x xs ih =>
    intro rel pr h
    simp only [scanJoin] at h
    cases hj : o.mkJoin x rel with
    | some j0 =>
      rw [hj] at h
      cases h
      exact ⟨[], x, xs, j0, rfl, rfl, hj, rfl⟩
    | none =>
      rw [hj] at h
      cases hs : scanJoin o n xs rel with
      | some pr2 =>
        rw [hs] at h
        cases h
        obtain ⟨l1, y, l2, j0, hl, hrest, hmk, hjr⟩ := ih rel pr2 hs
        exact ⟨x :: l1, y, l2, j0, by rw [List.cons_append, ← hl],
          by simpa using congrArg (List.cons x) hrest, hmk, hjr⟩
      | none => rw [hs] at h; cases h

theorem fmc_sorted_pos (o : Oracle) (n : Nat) (ho : OracleJoinPos o) :
    ∀ (lst : List Rel) (rel : Rel), SortedDesc lst → PosSizes lst → 1 ≤ relSize rel →
      SortedDesc (force_merge_clump o n lst rel) ∧
      PosSizes (force_merge_clump o n lst rel) := by
  intro lst rel
  induction lst, rel using force_merge_clump.induct o n with
  | case1 lst rel pr hscan ih =>
    intro hs hp hr
    rw [force_merge_clump_eq, hscan]
    obtain ⟨l1, x, l2, j0, hl, hrest, hmk, hjr⟩ := scanJoin_decomp o n lst rel pr hscan
    have hs' : SortedDesc pr.1 := by
      rw [hrest]; exact sortedDesc_delete l1 x l2 (hl ▸ hs)
    have hp' : PosSizes pr.1 := by
      intro z hz
      apply hp
      rw [hl]
      rw [hrest] at hz
      rcases List.mem_append.1 hz with h | h
      · exact List.mem_append.2 (Or.inl h)
      · exact List.mem_append.2 (Or.inr (List.mem_cons_of_mem x h))
    have hr' : 1 ≤ relSize pr.2 := by rw [hjr]; exact ho _ _ _ _ hmk
    exact ih hs' hp' hr'
  | case2 lst rel hscan =>
    intro hs hp hr
    rw [force_merge_clump_eq, hscan]
    refine ⟨insertDesc_sorted lst rel hs hp hr, ?_⟩
    intro z hz
    rcases insertDesc_mem lst rel z hz with h | h
    · exact hp z h
    · rw [h]; exact hr

/-- C9: the clump list is size-descending (ties in discovery order, since the
insertion walks strictly-greater comparisons) immediately before every
insertion performed by `force_merge_clump`, and each insertion and merge step
preserves that order: `force_merge_clump` maps a sorted positive-size list to
a sorted positive-size list (its recursive calls only delete one member, so
the list handed to the insertion step is still sorted), and the whole
force-merge fold starting from the empty list keeps the list sorted. -/
theorem C9_force_merge_sorted :
    ∀ (o : Oracle) (n : Nat), OracleJoinPos o →
      (∀ (lst : List Rel) (rel : Rel),
        SortedDesc lst → PosSizes lst → 1 ≤ relSize rel →
          SortedDesc (force_merge_clump o n lst rel) ∧
          PosSizes (force_merge_clump o n lst rel)) ∧
      (∀ (rels : List Rel), PosSizes rels →
        SortedDesc (rels.foldl (fun f r => force_merge_clump o n f r) []) ∧
        PosSizes (rels.foldl (fun f r => force_merge_clump o n f r) [])) := by
  intro o n ho
  refine ⟨fmc_sorted_pos o n ho, ?_⟩
  suffices h : ∀ (rs : List Rel) (acc : List Rel), PosSizes rs →
      SortedDesc acc → PosSizes acc →
      SortedDesc (rs.foldl (fun f r => force_merge_clump o n f r) acc) ∧
      PosSizes (rs.foldl (fun f r => force_merge_clump o n f r) acc) by
    intro rels hrels
    exact h rels [] hrels List.chain'_nil (by intro x hx; cases hx)
  intro rs
  induction rs with
  | nil => intro acc _ h2 h3; exact ⟨h2, h3⟩
  | cons r rs ih =>
    intro acc h1 h2 h3
    rw [List.foldl_cons]
    have hr : 1 ≤ relSize r := h1 r (List.mem_cons_self r rs)
    obtain ⟨hs', hp'⟩ := fmc_sorted_pos o n ho acc r h2 h3 hr
    exact ih _ (fun x hx => h1 x (List.mem_cons_of_mem r hx)) hs' hp'

/-- C9 witness: one force-merge insertion of a singleton clump into a
size-descending list, under the constant-join oracle. -/
theorem C9_witness :
    SortedDesc (force_merge_clump cOracle9 4 wClumps ⟨8, 0⟩) ∧
    PosSizes (force_merge_clump cOracle9 4 wClumps ⟨8, 0⟩) :=
  (C9_force_merge_sorted cOracle9 4
      (by
        intro a b j f h
        injection h with h2
        subst h2
        exact (by decide : 1 ≤ relSize (⟨1, 0⟩ : Rel)))).1
    wClumps ⟨8, 0⟩
    (List.chain'_cons.2 ⟨by decide, List.chain'_singleton _⟩)
    (by intro x hx; fin_cases hx <;> decide) (by decide)

theorem insertDesc_ne_nil (lst : List Rel) (rel : Rel) : insertDesc lst rel ≠ [] := by
  unfold insertDesc
  split
  · simp
  · split
    · simp
    · split <;> simp

theorem force_merge_clump_ne_nil (o : Oracle) (n : Nat) :
    ∀ (lst : List Rel) (rel : Rel), force_merge_clump o n lst rel ≠ [] := by
  intro lst rel
  induction lst, rel using force_merge_clump.induct o n with
  | case1 lst rel pr hscan ih => rw [force_merge_clump_eq, hscan]; exact ih
  | case2 lst rel hscan =>
    rw [force_merge_clump_eq, hscan]
    exact insertDesc_ne_nil lst rel

theorem tryMergeClump_ne_nil (o : Oracle) (n : Nat) (init : List Rel) :
    ∀ (bt : BinaryTree), tryMergeClump o n init bt ≠ [] := by
  intro bt
  induction bt with
  | leaf i => simp [tryMergeClump]
  | node lt rt ihl ihr =>
    unfold tryMergeClump
    dsimp only
    split
    · intro h; rw [List.append_eq_nil] at h; exact ihl h.1
    · split
      · split
        · split <;> simp
        · simp
      · intro h; rw [List.append_eq_nil] at h; exact ihl h.1

theorem foldl_fmc_ne_nil (o : Oracle) (n : Nat) :
    ∀ (rs : List Rel) (acc : List Rel), rs ≠ [] →
      rs.foldl (fun f r => force_merge_clump o n f r) acc ≠ [] := by
  intro rs
  induction rs with
  | nil => intro acc h; exact absurd rfl h
  | cons r rs ih =>
    intro acc _
    rw [List.foldl_cons]
    cases rs with
    | nil => exact force_merge_clump_ne_nil o n acc r
    | cons a as => exact ih _ (by simp)

theorem finalClumps_ne_nil (o : Oracle) (n : Nat) (init : List Rel)
    (bt : BinaryTree) : finalClumps o n init bt ≠ [] := by
  unfold finalClumps
  dsimp only
  split
  · next hlen =>
    apply foldl_fmc_ne_nil
    intro h
    rw [h] at hlen
    simp at hlen
  · exact tryMergeClump_ne_nil o n init bt

/-- C10: `construct_rel_based_on_plan` returns a relation iff the clump list
left by the guide-tree walk plus exhaustive force-merging is exactly that
single clump; in every other case — which is always two or more clumps, the
pipeline never produces zero — it returns `NULL` and no partial result. -/
theorem C10_single_clump_iff :
    ∀ (o : Oracle) (n : Nat) (init : List Rel) (bt : BinaryTree) (r : Rel),
      (construct_rel_based_on_plan o n init bt = some r ↔
        finalClumps o n init bt = [r]) ∧
      (construct_rel_based_on_plan o n init bt = none ↔
        2 ≤ (finalClumps o n init bt).length) := by
  intro o n init bt r
  unfold construct_rel_based_on_plan
  cases hf : finalClumps o n init bt with
  | nil => exact absurd hf (finalClumps_ne_nil o n init bt)
  | cons x tail =>
    cases tail with
    | nil =>
      constructor
      · constructor
        · intro h
          injection h with h2
          rw [h2]
        · intro h
          injection h with h1 _
          rw [h1]
      · constructor
        · intro h; cases h
        · intro h; simp at h
    | cons y t2 =>
      constructor
      · constructor
        · intro h; cases h
        · intro h; simp at h
      · constructor
        · intro _; simp
        · intro _; rfl

/-- C5 amended witness: instantiated at the constraint `(0, 1)` over the
sub_rels `[0, 1]` with `u = 0`. -/
theorem C5_amended_witness :
    ((splitsValid [(0, 1)] [0, 1] 0 = true) ↔
      ∀ c ∈ [((0 : Nat), (1 : Nat))], c.1 = 0 → c.2 ∉ ([0, 1] : List Nat)) ∧
    (∀ (o : Oracle) (P : DP) (n : Nat),
      trySplits o [0, 1] [(0, 1)] P n =
        (([0, 1] : List Nat).filter (fun v => splitsValid [(0, 1)] [0, 1] v)).foldlM
          (ldStep o (mkBitmap [0, 1]) (List.length [0, 1]) n) P) :=
  C5_amended_valid_rule [(0, 1)] [0, 1] 0 (by decide)

/-! ## Partition-completeness lemmas -/

theorem bitsToNat_lt (f : Nat → Bool) : ∀ (k : Nat), bitsToNat f k < 2 ^ k := by
  intro k
  induction k generalizing f with
  | zero => simp [bitsToNat]
  | succ k ih =>
    have h := ih (fun i => f (i + 1))
    unfold bitsToNat
    by_cases hf : f 0 <;> simp [hf] <;> omega

theorem bitsToNat_testBit :
    ∀ (k : Nat) (f : Nat → Bool) (i : Nat), i < k →
      (bitsToNat f k).testBit i = f i := by
  intro k
  induction k with
  | zero => intro f i hi; cases hi
  | succ k ih =>
    intro f i hi
    unfold bitsToNat
    cases i with
    | zero =>
      rw [Nat.testBit_zero]
      by_cases hf : f 0 <;> simp [hf, Nat.add_mul_mod_self_left]
    | succ i =>
      rw [Nat.testBit_add_one]
      have hdiv : ((if f 0 then 1 else 0) + 2 * bitsToNat (fun j => f (j + 1)) k) / 2 =
          bitsToNat (fun j => f (j + 1)) k := by
        by_cases hf : f 0 <;> simp [hf] <;> omega
      rw [hdiv]
      exact ih (fun j => f (j + 1)) i (Nat.lt_of_succ_lt_succ hi)

theorem land_pow_pos (p i : Nat) : (p &&& (1 <<< i) > 0) ↔ p.testBit i = true := by
  rw [Nat.shiftLeft_eq, one_mul, Nat.and_two_pow]
  cases h : p.testBit i <;> simp

theorem countP_range_pow (k : Nat) :
    ∀ (n : Nat), (List.range n).countP (fun i => decide (2 ^ i < 2 ^ k)) = min k n := by
  intro n
  induction n with
  | zero => simp
  | succ n ih =>
    rw [List.range_succ, List.countP_append, ih]
    by_cases h : n < k
    · have hp : (2 : Nat) ^ n < 2 ^ k := Nat.pow_lt_pow_right one_lt_two h
      simp [List.countP_cons, hp]
      omega
    · have hp : ¬ (2 : Nat) ^ n < 2 ^ k := by
        intro hc
        exact h ((Nat.pow_lt_pow_iff_right one_lt_two).1 hc)
      simp [List.countP_cons, hp]
      omega

theorem numGroups_pow (k : Nat) : numGroups (2 ^ k) = k := by
  unfold numGroups
  rw [countP_range_pow]
  exact Nat.min_eq_left (le_of_lt (Nat.lt_two_pow k))

theorem indexOf_ne_of_mem :
    ∀ (l : List Nat) (a b : Nat), a ∈ l → a ≠ b →
      l.indexOf a ≠ l.indexOf b := by
  intro l
  induction l with
  | nil => intro a b ha; cases ha
  | cons x xs ih =>
    intro a b ha hne
    by_cases hxa : x = a
    · have h1 : (x == a) = true := beq_iff_eq.2 hxa
      have h2 : (x == b) = false := beq_eq_false_iff_ne.2 (by rw [hxa]; exact hne)
      simp [List.indexOf_cons, h1, h2]
    · by_cases hxb : x = b
      · have h1 : (x == a) = false := beq_eq_false_iff_ne.2 hxa
        have h2 : (x == b) = true := beq_iff_eq.2 hxb
        simp [List.indexOf_cons, h1, h2]
      · have h1 : (x == a) = false := beq_eq_false_iff_ne.2 hxa
        have h2 : (x == b) = false := beq_eq_false_iff_ne.2 hxb
        have ha' : a ∈ xs := by
          rcases List.mem_cons.1 ha with h | h
          · exact absurd h.symm hxa
          · exact h
        simp only [List.indexOf_cons, h1, h2, cond_false]
        intro hc
        exact ih a b ha' hne (by omega)

/-- C2 amended: for every worker count that is a power of two, `W = 2^k` with
`2k ≤ N`, and every left-deep join order over the `N` ordinals, some
partition id below `W` has a constraint set admitting that order (choose the
partition whose bit `i` matches the order's relative placement of `2i` and
`2i+1`), so the union of the search spaces across all partition ids
reproduces the full unconstrained space; in particular at `N = 6` the
admissible-set bitmaps of workers = 1 coincide exactly with the union of the
four partitions' bitmaps at workers = 4. -/
theorem C2_amended_partition_completeness :
    (∀ (k n : Nat) (ord : List Nat), 2 * k ≤ n → (∀ q, q < n → q ∈ ord) →
      ∃ p, p < 2 ^ k ∧ admitsOrder (part_constraints n p (2 ^ k)) ord = true) ∧
    (admBitmaps 6 (part_constraints 6 0 1)).toFinset =
      ((List.range 4).flatMap (fun p => admBitmaps 6 (part_constraints 6 p 4))).toFinset := by
  constructor
  · intro k n ord h2k hcov
    refine ⟨bitsToNat (fun i => decide (ord.indexOf (2 * i + 1) < ord.indexOf (2 * i))) k,
      bitsToNat_lt _ k, ?_⟩
    rw [admitsOrder, List.all_eq_true]
    intro c hc
    rw [part_constraints, List.mem_map] at hc
    obtain ⟨i, hi, hci⟩ := hc
    rw [List.mem_range, numGroups_pow] at hi
    have hbit :
        (bitsToNat (fun i => decide (ord.indexOf (2 * i + 1) < ord.indexOf (2 * i))) k
            &&& (1 <<< i) > 0) ↔
          (ord.indexOf (2 * i + 1) < ord.indexOf (2 * i)) := by
      rw [land_pow_pos, bitsToNat_testBit k _ i hi, decide_eq_true_eq]
    by_cases hlt : ord.indexOf (2 * i + 1) < ord.indexOf (2 * i)
    · rw [if_pos (hbit.2 hlt)] at hci
      rw [← hci]
      exact decide_eq_true hlt
    · have hnb : ¬ (bitsToNat (fun i => decide (ord.indexOf (2 * i + 1) < ord.indexOf (2 * i))) k
          &&& (1 <<< i) > 0) := fun hb => hlt (hbit.1 hb)
      rw [if_neg hnb] at hci
      rw [← hci]
      apply decide_eq_true
      show ord.indexOf (2 * i) < ord.indexOf (2 * i + 1)
      have hmem : (2 * i) ∈ ord := hcov (2 * i) (by omega)
      have hne : ord.indexOf (2 * i) ≠ ord.indexOf (2 * i + 1) :=
        indexOf_ne_of_mem ord (2 * i) (2 * i + 1) hmem (by omega)
      have hle : ord.indexOf (2 * i) ≤ ord.indexOf (2 * i + 1) := Nat.le_of_not_lt hlt
      omega
  · decide

/-- C2 amended witness: at `k = 2`, `N = 6`, the order `[1, 0, 3, 2, 4, 5]`
(which no workers = 3 partition admits) is admitted by some partition id
below 4. -/
theorem C2_amended_witness :
    ∃ p, p < 2 ^ 2 ∧
      admitsOrder (part_constraints 6 p (2 ^ 2)) [1, 0, 3, 2, 4, 5] = true :=
  C2_amended_partition_completeness.1 2 6 [1, 0, 3, 2, 4, 5] (by decide) (by decide)

/-! ## Full-coverage lemmas for the unconstrained generator -/

theorem mem_cartesian_left {a b : List (List Nat)} {l : List Nat} (h : l ∈ a) :
    l ∈ cartesian_product a b := by
  cases a with
  | nil => cases h
  | cons x as =>
    cases b with
    | nil => exact h
    | cons y bs =>
      unfold cartesian_product
      exact List.mem_append.2 (Or.inl (List.mem_append.2 (Or.inl h)))

theorem mem_cartesian_right {a b : List (List Nat)} {l : List Nat} (h : l ∈ b) :
    l ∈ cartesian_product a b := by
  cases a with
  | nil =>
    cases b with
    | nil => cases h
    | cons y bs => exact h
  | cons x as =>
    cases b with
    | nil => cases h
    | cons y bs =>
      unfold cartesian_product
      exact List.mem_append.2 (Or.inl (List.mem_append.2 (Or.inr h)))

theorem mem_cartesian_union {a b : List (List Nat)} {x y : List Nat}
    (hx : x ∈ a) (hy : y ∈ b) : (y ++ x) ∈ cartesian_product a b := by
  cases a with
  | nil => cases hx
  | cons a0 as =>
    cases b with
    | nil => cases hy
    | cons b0 bs =>
      unfold cartesian_product
      refine List.mem_append.2 (Or.inr ?_)
      rw [List.mem_flatMap]
      exact ⟨y, hy, List.mem_map.2 ⟨x, hx, rfl⟩⟩

theorem adm_join_results_succ (m : Nat) (constr : List (Nat × Nat)) :
    adm_join_results (2 * (m + 1)) constr =
      cartesian_product (adm_join_results (2 * m) constr)
        (constrained_power_set constr (2 * m) (2 * m + 1)) := by
  unfold adm_join_results
  have h1 : 2 * (m + 1) / 2 = m + 1 := by omega
  have h2 : 2 * m / 2 = m := by omega
  rw [h1, h2, List.range_succ, List.foldl_append, List.foldl_cons, List.foldl_nil]

theorem adm_full_cover :
    ∀ (m : Nat) (S : Finset ℕ), S.Nonempty → S ⊆ Finset.range (2 * m) →
      ∃ l ∈ adm_join_results (2 * m) [], l.toFinset = S := by
  intro m
  induction m with
  | zero =>
    intro S hne hsub
    obtain ⟨x, hx⟩ := hne
    have := hsub hx
    simp at this
  | succ m ih =>
    intro S hne hsub
    rw [adm_join_results_succ]
    classical
    have hS12 : S.filter (fun x => x < 2 * m) ∪ S.filter (fun x => ¬ x < 2 * m) = S :=
      Finset.filter_union_filter_neg_eq _ S
    have hsub1 : S.filter (fun x => x < 2 * m) ⊆ Finset.range (2 * m) := by
      intro x hx
      rw [Finset.mem_range]
      exact (Finset.mem_filter.1 hx).2
    have hmem2 : ∀ x ∈ S.filter (fun x => ¬ x < 2 * m), x = 2 * m ∨ x = 2 * m + 1 := by
      intro x hx
      have h1 := (Finset.mem_filter.1 hx).2
      have h2 := hsub (Finset.mem_filter.1 hx).1
      rw [Finset.mem_range] at h2
      omega
    by_cases h2e : S.filter (fun x => ¬ x < 2 * m) = ∅
    · have hS : S.filter (fun x => x < 2 * m) = S := by
        apply Finset.filter_eq_self.2
        intro x hx
        by_contra hc
        have hmem : x ∈ S.filter (fun x => ¬ x < 2 * m) := Finset.mem_filter.2 ⟨hx, hc⟩
        rw [h2e] at hmem
        exact absurd hmem (Finset.not_mem_empty x)
      obtain ⟨l, hl, hlf⟩ := ih (S.filter (fun x => x < 2 * m))
        (by rw [hS]; exact hne) hsub1
      exact ⟨l, mem_cartesian_left hl, by rw [hlf, hS]⟩
    · have hcps : ∃ l2 ∈ constrained_power_set [] (2 * m) (2 * m + 1),
          l2.toFinset = S.filter (fun x => ¬ x < 2 * m) := by
        by_cases ha : (2 * m) ∈ S.filter (fun x => ¬ x < 2 * m) <;>
          by_cases hb : (2 * m + 1) ∈ S.filter (fun x => ¬ x < 2 * m)
        · refine ⟨[2 * m, 2 * m + 1], by simp [constrained_power_set], ?_⟩
          ext x
          simp only [List.mem_toFinset, List.mem_cons, List.not_mem_nil, or_false]
          constructor
          · intro h
            rcases h with h | h
            · rw [h]; exact ha
            · rw [h]; exact hb
          · intro h
            exact hmem2 x h
        · refine ⟨[2 * m], by simp [constrained_power_set], ?_⟩
          ext x
          simp only [List.mem_toFinset, List.mem_cons, List.not_mem_nil, or_false]
          constructor
          · intro h; rw [h]; exact ha
          · intro h
            rcases hmem2 x h with h2 | h2
            · exact h2
            · rw [h2] at h; exact absurd h hb
        · refine ⟨[2 * m + 1], by simp [constrained_power_set], ?_⟩
          ext x
          simp only [List.mem_toFinset, List.mem_cons, List.not_mem_nil, or_false]
          constructor
          · intro h; rw [h]; exact hb
          · intro h
            rcases hmem2 x h with h2 | h2
            · rw [h2] at h; exact absurd h ha
            · exact h2
        · exfalso
          obtain ⟨x, hx⟩ := Finset.nonempty_iff_ne_empty.2 h2e
          rcases hmem2 x hx with h2 | h2
          · rw [h2] at hx; exact ha hx
          · rw [h2] at hx; exact hb hx
      obtain ⟨l2, hl2, hl2f⟩ := hcps
      by_cases h1e : S.filter (fun x => x < 2 * m) = ∅
      · have hS : S.filter (fun x => ¬ x < 2 * m) = S := by
          apply Finset.filter_eq_self.2
          intro x hx
          intro hc
          have hmem : x ∈ S.filter (fun x => x < 2 * m) := Finset.mem_filter.2 ⟨hx, hc⟩
          rw [h1e] at hmem
          exact absurd hmem (Finset.not_mem_empty x)
        exact ⟨l2, mem_cartesian_right hl2, by rw [hl2f, hS]⟩
      · obtain ⟨l1, hl1, hl1f⟩ := ih (S.filter (fun x => x < 2 * m))
          (Finset.nonempty_iff_ne_empty.2 h1e) hsub1
        refine ⟨l2 ++ l1, mem_cartesian_union hl1 hl2, ?_⟩
        rw [List.toFinset_append, hl1f, hl2f, Finset.union_comm, hS12]

/-- C6 amended: with worker count 1 the derived constraint set is empty for
every `N`, and for every even `N` the generator enumerates, for every
nonempty subset of `{0..N-1}` (so in particular every subset of size 2 and
up), an admissible-set entry covering exactly that subset — the search
degenerates to full unrestricted coverage. -/
theorem C6_amended_full_coverage :
    ∀ (n : Nat), part_constraints n 0 1 = [] ∧
      (∀ (m : Nat), n = 2 * m → ∀ (S : Finset ℕ), S.Nonempty → S ⊆ Finset.range n →
        ∃ l ∈ adm_join_results n (part_constraints n 0 1), l.toFinset = S) := by
  intro n
  refine ⟨rfl, ?_⟩
  intro m hm S hne hsub
  subst hm
  exact adm_full_cover m S hne hsub

/-- C6 amended witness: at `N = 4`, the full subset `{0, 1, 2, 3}` is
enumerated by the unconstrained generator. -/
theorem C6_amended_witness :
    ∃ l ∈ adm_join_results 4 (part_constraints 4 0 1),
      l.toFinset = ({0, 1, 2, 3} : Finset ℕ) :=
  (C6_amended_full_coverage 4).2 2 rfl {0, 1, 2, 3} (by decide) (by decide)

end DB
